import Mathlib

/-!
Shallow embedding of src/src/dlinkedlist.c.

The C module keeps a pool of doubly linked nodes bounded by the pointers
front and tail, and a logical window bounded by list_start and list_end.
Since every public operation keeps the pool one unbroken chain, the pool is
embedded as a Lean list of element slots in chain order: position 0 is the
node front points to, position pool.length - 1 is the node tail points to,
and the pointers list_start and list_end become positions in that list.
Each slot is an Option: none models a NULL elem pointer, which is also the
initial content of every freshly malloced node.

Machine integers: the C fields are int, guarded by assert(hint >= 0) and
assert(hint < INT_MAX); counts are embedded as Nat and client supplied
indices as Int, so that negative index preconditions are expressible.
Overflow of the int counters is not exercised by any claim and is not
modelled.

A C assert failure (including dereferencing a NULL neighbour pointer) is
a fatal precondition violation, embedded as the none result of an
Option returning operation.
-/

/-- Embedding of struct dlinkedlist_t.  The field capacity mirrors the
stored int field of the C struct; pool.length is the number of nodes
actually allocated. -/
structure DLinkedList (α : Type) where
  pool : List (Option α)
  list_start : Nat
  list_end : Nat
  capacity : Nat
  size : Nat
deriving DecidableEq, Repr

/-- Loop body of malloc_hint: the C for loop runs i = hint-2 down to 0,
each iteration allocating one empty node and linking it before the current
front node. -/
def malloc_hint_loop (α : Type) : Nat → List (Option α) → List (Option α)
  | 0, node => node
  | n + 1, node => malloc_hint_loop α n (none :: node)

/-- Embedding of malloc_hint: allocates one node, then hint - 1 further
nodes chained before it when hint > 1, returning the chain (whose last
cell the C code records as tail and whose first cell it returns as
front). -/
def malloc_hint (α : Type) (hint : Nat) : List (Option α) :=
  if 1 < hint then malloc_hint_loop α (hint - 1) [none] else [none]

/-- Embedding of DLinkedList_new.  The C code bumps a zero hint to 1,
stores it as capacity, builds the pool with malloc_hint, and anchors both
list_start and list_end at front. -/
def DLinkedList_new (α : Type) (hint : Nat) : DLinkedList α :=
  { pool := malloc_hint α (if hint = 0 then hint + 1 else hint)
    list_start := 0
    list_end := 0
    capacity := if hint = 0 then hint + 1 else hint
    size := 0 }

/-- Embedding of DLinkedList_length. -/
def DLinkedList_length (s : DLinkedList α) : Nat := s.size

/-- Embedding of DLinkedList_append.  Branches exactly as the C source:
when size == 0 the element is written through tail (the last pooled node);
when size == capacity a node carrying the element is linked after tail and
list_end moves to its chain successor; otherwise list_end's successor must
exist (assert(node != NULL)) and receives the element. -/
def DLinkedList_append (s : DLinkedList α) (elem : Option α) : Option (DLinkedList α) :=
  if s.size = 0 then
    some { s with pool := s.pool.set (s.pool.length - 1) elem, size := s.size + 1 }
  else if s.size = s.capacity then
    some { s with pool := s.pool ++ [elem]
                  list_end := s.list_end + 1
                  capacity := s.capacity + 1
                  size := s.size + 1 }
  else if s.list_end + 1 < s.pool.length then
    some { s with pool := s.pool.set (s.list_end + 1) elem
                  list_end := s.list_end + 1
                  size := s.size + 1 }
  else none

/-- Embedding of DLinkedList_prepend.  When size == 0 the element is
written through front; when size == capacity a node carrying the element
is linked before front (shifting every chain position up by one, so the
stored positions of list_start and list_end follow the C pointer updates);
otherwise list_start's predecessor must exist (assert(node != NULL)) and
receives the element. -/
def DLinkedList_prepend (s : DLinkedList α) (elem : Option α) : Option (DLinkedList α) :=
  if s.size = 0 then
    some { s with pool := s.pool.set 0 elem, size := s.size + 1 }
  else if s.size = s.capacity then
    some { s with pool := elem :: s.pool
                  list_start := s.list_start
                  list_end := s.list_end + 1
                  capacity := s.capacity + 1
                  size := s.size + 1 }
  else if 0 < s.list_start then
    some { s with pool := s.pool.set (s.list_start - 1) elem
                  list_start := s.list_start - 1
                  size := s.size + 1 }
  else none

/-- Forward walk along next pointers: one step from chain position i goes
to i + 1 and is possible exactly when that position is still inside the
allocated chain. -/
def walkF (len : Nat) : Nat → Nat → Option Nat
  | i, 0 => some i
  | i, n + 1 => if i + 1 < len then walkF len (i + 1) n else none

/-- Backward walk along prev pointers: one step from chain position i goes
to i - 1 and is possible exactly when i is not the front node. -/
def walkB : Nat → Nat → Option Nat
  | i, 0 => some i
  | i, n + 1 => if 0 < i then walkB (i - 1) n else none

/-- Embedding of split_search: compares the index with size / 2 and walks
forward from list_start (index steps) or backward from list_end
(size - 1 - index steps). -/
def split_search (s : DLinkedList α) (i : Nat) : Option Nat :=
  if i < s.size / 2 then walkF s.pool.length s.list_start i
  else walkB s.list_end (s.size - 1 - i)

/-- Embedding of search: asserts 0 <= index < size, answers list_start for
index 0 and list_end for index size - 1, and otherwise delegates to
split_search. -/
def search (s : DLinkedList α) (index : Int) : Option Nat :=
  if index < 0 ∨ (s.size : Int) ≤ index then none
  else if index.toNat = 0 then some s.list_start
  else if index.toNat = s.size - 1 then some s.list_end
  else split_search s index.toNat

/-- Embedding of DLinkedList_get: asserts 0 <= index < size, keeps the
(unreachable) early NULL return for size == 0, then reads the elem slot of
the node found by search. -/
def DLinkedList_get (s : DLinkedList α) (index : Int) : Option (Option α) :=
  if index < 0 ∨ (s.size : Int) ≤ index then none
  else if s.size = 0 then some none
  else
    match search s index with
    | none => none
    | some j => s.pool[j]?

/-- Embedding of DLinkedList_first: NULL for an empty list, otherwise the
elem slot of the node at list_start. -/
def DLinkedList_first (s : DLinkedList α) : Option (Option α) :=
  if s.size = 0 then some none else s.pool[s.list_start]?

/-- Embedding of DLinkedList_last: NULL for an empty list, otherwise the
elem slot of the node at list_end. -/
def DLinkedList_last (s : DLinkedList α) : Option (Option α) :=
  if s.size = 0 then some none else s.pool[s.list_end]?

/-- Embedding of DLinkedList_set: asserts 0 <= index <= size, delegates to
append when index == size, and otherwise overwrites the elem slot of the
node found by search. -/
def DLinkedList_set (s : DLinkedList α) (elem : Option α) (index : Int) : Option (DLinkedList α) :=
  if index < 0 ∨ (s.size : Int) < index then none
  else if index = (s.size : Int) then DLinkedList_append s elem
  else
    match search s index with
    | none => none
    | some j => if j < s.pool.length then some { s with pool := s.pool.set j elem } else none

/-- Embedding of DLinkedList_remove: the C body only casts its arguments
to void, so the state is returned unchanged. -/
def DLinkedList_remove (s : DLinkedList α) (index : Int) : DLinkedList α :=
  let _ := index
  s

/-- Embedding of DLinkedList_removehi: the C body only casts its argument
to void. -/
def DLinkedList_removehi (s : DLinkedList α) : DLinkedList α := s

/-- Embedding of DLinkedList_removelo: the C body only casts its argument
to void. -/
def DLinkedList_removelo (s : DLinkedList α) : DLinkedList α := s

/-- Sequence of appends, used to state concrete scenarios from the spec. -/
def appendAll : DLinkedList α → List α → Option (DLinkedList α)
  | s, [] => some s
  | s, e :: es =>
    match DLinkedList_append s (some e) with
    | none => none
    | some t => appendAll t es

/-- States reachable through the public mutating interface, starting from
any constructed list.  The read only operations do not change the state,
and the three remove operations are included even though they are
identities in the source. -/
inductive Reachable (α : Type) : DLinkedList α → Prop where
  | new (hint : Nat) : Reachable α (DLinkedList_new α hint)
  | append {s s' : DLinkedList α} {e : Option α} :
      Reachable α s → DLinkedList_append s e = some s' → Reachable α s'
  | prepend {s s' : DLinkedList α} {e : Option α} :
      Reachable α s → DLinkedList_prepend s e = some s' → Reachable α s'
  | set {s s' : DLinkedList α} {e : Option α} {i : Int} :
      Reachable α s → DLinkedList_set s e i = some s' → Reachable α s'
  | remove {s : DLinkedList α} (i : Int) :
      Reachable α s → Reachable α (DLinkedList_remove s i)
  | removehi {s : DLinkedList α} :
      Reachable α s → Reachable α (DLinkedList_removehi s)
  | removelo {s : DLinkedList α} :
      Reachable α s → Reachable α (DLinkedList_removelo s)

/-- Representation invariant maintained by every public operation: the
stored capacity counts the pooled nodes, the window start stays anchored
at front (chain position 0), and the window end sits at chain position
size - 1 (position 0 while the window is empty). -/
def WF (s : DLinkedList α) : Prop :=
  s.list_start = 0 ∧ s.capacity = s.pool.length ∧ 1 ≤ s.capacity ∧
    s.size ≤ s.capacity ∧ (s.size = 0 → s.list_end = 0) ∧
    (1 ≤ s.size → s.list_end + 1 = s.size)

theorem malloc_hint_loop_eq (α : Type) :
    ∀ (n : Nat) (node : List (Option α)),
      malloc_hint_loop α n node = List.replicate n none ++ node := by
  intro n
  induction n with
  | zero => intro node; simp [malloc_hint_loop]
  | succ n ih =>
    intro node
    rw [malloc_hint_loop, ih, List.replicate_succ']
    simp

theorem malloc_hint_eq (α : Type) (hint : Nat) (h : 1 ≤ hint) :
    malloc_hint α hint = List.replicate hint none := by
  unfold malloc_hint
  by_cases h1 : 1 < hint
  · rw [if_pos h1, malloc_hint_loop_eq]
    have : hint - 1 + 1 = hint := by omega
    rw [← List.replicate_succ' (hint - 1) (none : Option α), this]
  · have : hint = 1 := by omega
    subst this
    simp

theorem new_wf (α : Type) (hint : Nat) : WF (DLinkedList_new α hint) := by
  by_cases h : hint = 0
  · subst h
    refine ⟨rfl, ?_, by simp [DLinkedList_new], by simp [DLinkedList_new], fun _ => rfl, by simp [DLinkedList_new]⟩
    simp [DLinkedList_new, malloc_hint_eq α 1 (by omega)]
  · refine ⟨rfl, ?_, ?_, ?_, fun _ => rfl, by simp [DLinkedList_new]⟩
    · simp [DLinkedList_new, h, malloc_hint_eq α hint (by omega)]
    · simp [DLinkedList_new, h]
      omega
    · simp [DLinkedList_new]

theorem append_wf {α : Type} {s s' : DLinkedList α} {e : Option α}
    (hI : WF s) (h : DLinkedList_append s e = some s') : WF s' := by
  obtain ⟨h1, h2, h3, h4, h5, h6⟩ := hI
  unfold DLinkedList_append at h
  split_ifs at h with c0 c1 c2 <;> cases h <;>
    simp only [WF, List.length_set, List.length_append, List.length_cons,
      List.length_nil] <;> omega

theorem prepend_wf {α : Type} {s s' : DLinkedList α} {e : Option α}
    (hI : WF s) (h : DLinkedList_prepend s e = some s') : WF s' := by
  obtain ⟨h1, h2, h3, h4, h5, h6⟩ := hI
  unfold DLinkedList_prepend at h
  split_ifs at h with c0 c1 c2 <;> cases h <;>
    simp only [WF, List.length_set, List.length_cons] <;> omega

theorem set_wf {α : Type} {s s' : DLinkedList α} {e : Option α} {i : Int}
    (hI : WF s) (h : DLinkedList_set s e i = some s') : WF s' := by
  unfold DLinkedList_set at h
  split_ifs at h with c0 c1
  · exact append_wf hI h
  · rcases hs : search s i with _ | j
    · rw [hs] at h
      exact Option.noConfusion h
    · rw [hs] at h
      dsimp only at h
      split_ifs at h with hj
      cases h
      obtain ⟨h1, h2, h3, h4, h5, h6⟩ := hI
      simp only [WF, List.length_set]
      exact ⟨h1, by omega, h3, h4, h5, h6⟩

theorem reachable_wf {α : Type} {s : DLinkedList α}
    (h : Reachable α s) : WF s := by
  induction h with
  | new hint => exact new_wf α hint
  | append _ hstep ih => exact append_wf ih hstep
  | prepend _ hstep ih => exact prepend_wf ih hstep
  | set _ hstep ih => exact set_wf ih hstep
  | remove i _ ih => exact ih
  | removehi _ ih => exact ih
  | removelo _ ih => exact ih

theorem walkF_ok (len : Nat) :
    ∀ (n i : Nat), i + n < len → walkF len i n = some (i + n) := by
  intro n
  induction n with
  | zero => intro i h; simp [walkF]
  | succ n ih =>
    intro i h
    rw [walkF, if_pos (by omega), ih (i + 1) (by omega)]
    congr 1
    omega

theorem walkB_ok : ∀ (n i : Nat), n ≤ i → walkB i n = some (i - n) := by
  intro n
  induction n with
  | zero => intro i h; simp [walkB]
  | succ n ih =>
    intro i h
    rw [walkB, if_pos (by omega), ih (i - 1) (by omega)]
    congr 1
    omega

theorem search_eq {α : Type} {s : DLinkedList α} (hW : WF s) {index : Int}
    (h0 : 0 ≤ index) (hlt : index < (s.size : Int)) :
    search s index = some index.toNat := by
  obtain ⟨h1, h2, h3, h4, h5, h6⟩ := hW
  have hi : index.toNat < s.size := by omega
  unfold search
  rw [if_neg (by omega)]
  by_cases hz : index.toNat = 0
  · rw [if_pos hz, h1, hz]
  · rw [if_neg hz]
    by_cases hlast : index.toNat = s.size - 1
    · rw [if_pos hlast]
      have he : s.list_end = index.toNat := by omega
      rw [he]
    · rw [if_neg hlast]
      unfold split_search
      by_cases hmid : index.toNat < s.size / 2
      · rw [if_pos hmid, h1, walkF_ok s.pool.length index.toNat 0 (by omega)]
        simp
      · rw [if_neg hmid, walkB_ok (s.size - 1 - index.toNat) s.list_end (by omega)]
        congr 1
        omega

theorem get_in_range {α : Type} {s : DLinkedList α} (hW : WF s) {index : Int}
    (h0 : 0 ≤ index) (hlt : index < (s.size : Int)) :
    DLinkedList_get s index = s.pool[index.toNat]? := by
  unfold DLinkedList_get
  rw [if_neg (by omega), if_neg (by omega), search_eq hW h0 hlt]

theorem get_is_some {α : Type} {s : DLinkedList α} (hW : WF s) (index : Int)
    (h0 : 0 ≤ index) (hlt : index < (s.size : Int)) :
    ∃ v, DLinkedList_get s index = some v := by
  obtain ⟨h1, h2, h3, h4, h5, h6⟩ := hW
  rw [get_in_range ⟨h1, h2, h3, h4, h5, h6⟩ h0 hlt]
  exact ⟨_, List.getElem?_eq_getElem (by omega)⟩

theorem append_total {α : Type} {s : DLinkedList α} (hW : WF s) (e : Option α) :
    ∃ u, DLinkedList_append s e = some u ∧ u.size = s.size + 1 ∧
      ((s.size = s.capacity ∧ u.capacity = s.capacity + 1) ∨
        (¬s.size = s.capacity ∧ u.capacity = s.capacity)) := by
  obtain ⟨h1, h2, h3, h4, h5, h6⟩ := hW
  unfold DLinkedList_append
  split_ifs with c0 c1 c2
  · exact ⟨_, rfl, rfl, Or.inr ⟨by omega, rfl⟩⟩
  · exact ⟨_, rfl, rfl, Or.inl ⟨c1, rfl⟩⟩
  · exact ⟨_, rfl, rfl, Or.inr ⟨c1, rfl⟩⟩
  · exact absurd (show s.list_end + 1 < s.pool.length by omega) c2

theorem appendAll_spec {α : Type} :
    ∀ (es : List α) {s : DLinkedList α}, WF s →
      ∃ t, appendAll s es = some t ∧ t.size = s.size + es.length ∧
        t.capacity = max s.capacity (s.size + es.length) := by
  intro es
  induction es with
  | nil =>
    intro s hW
    obtain ⟨h1, h2, h3, h4, h5, h6⟩ := hW
    refine ⟨s, rfl, by simp, ?_⟩
    simp only [List.length_nil]
    omega
  | cons e es ih =>
    intro s hW
    obtain ⟨hs4, hs3⟩ : s.size ≤ s.capacity ∧ 1 ≤ s.capacity := ⟨hW.2.2.2.1, hW.2.2.1⟩
    obtain ⟨u, hu, husize, hucap⟩ := append_total hW (some e)
    obtain ⟨t, ht, htsize, htcap⟩ := ih (append_wf hW hu)
    refine ⟨t, ?_, ?_, ?_⟩
    · rw [appendAll, hu]
      dsimp only
      exact ht
    · rw [htsize, husize, List.length_cons]
      omega
    · rcases hucap with ⟨hceq, hval⟩ | ⟨hcne, hval⟩ <;>
        rw [htcap, husize, hval, List.length_cons] <;> omega

/-- C1: evaluation of append on a freshly created list with hint 2.  The
size == 0 branch of DLinkedList_append writes the element through tail
(the last pooled node) while list_end stays at front, so after appending
a, b, c the first element is unreachable: length() is 3, last() is c and
get(1) is b as the claim states, but first() returns the NULL slot of the
untouched front node instead of a. -/
theorem append_on_empty_stores_at_tail :
    (DLinkedList_append (DLinkedList_new String 2) (some "a")).map (fun s => s.pool)
        = some [none, some "a"] ∧
    (DLinkedList_append (DLinkedList_new String 2) (some "a")).map (fun s => s.list_end)
        = some 0 ∧
    (DLinkedList_append (DLinkedList_new String 2) (some "a")).map DLinkedList_length
        = some 1 ∧
    (appendAll (DLinkedList_new String 2) ["a", "b", "c"]).map DLinkedList_length
        = some 3 ∧
    (appendAll (DLinkedList_new String 2) ["a", "b", "c"]).bind DLinkedList_last
        = some (some "c") ∧
    (appendAll (DLinkedList_new String 2) ["a", "b", "c"]).bind (fun s => DLinkedList_get s 1)
        = some (some "b") ∧
    (appendAll (DLinkedList_new String 2) ["a", "b", "c"]).bind DLinkedList_first
        = some none := by
  decide

/-- C2: evaluation at hint 2 with three appended elements.  The capacity
half of the claim holds (capacity becomes exactly n = 3, one node per
element beyond the pool; appendAll_spec proves this in general), but
get(0) returns the NULL slot of the front node instead of the first
appended element, which was written through tail and then overwritten by
the second append. -/
theorem append_capacity_exact_but_first_lost :
    (appendAll (DLinkedList_new String 2) ["x", "y", "z"]).map (fun s => s.capacity)
        = some 3 ∧
    (appendAll (DLinkedList_new String 2) ["x", "y", "z"]).map (fun s => s.pool.length)
        = some 3 ∧
    (appendAll (DLinkedList_new String 2) ["x", "y", "z"]).bind (fun s => DLinkedList_get s 0)
        = some none ∧
    (appendAll (DLinkedList_new String 2) ["x", "y", "z"]).bind (fun s => DLinkedList_get s 1)
        = some (some "y") ∧
    (appendAll (DLinkedList_new String 2) ["x", "y", "z"]).bind (fun s => DLinkedList_get s 2)
        = some (some "z") := by
  decide

/-- C3: prepending a first element to a hint 2 list succeeds (size == 0
branch), but prepending a second element aborts: the spare branch reads
list_start->prev, and list_start is always the front node whose prev
pointer is NULL, so assert(node != NULL) fires even though spare capacity
exists. -/
theorem prepend_second_element_aborts :
    DLinkedList_prepend (DLinkedList_new String 2) (some "a")
        = some (DLinkedList.mk [some "a", none] 0 0 2 1) ∧
    (DLinkedList_prepend (DLinkedList_new String 2) (some "a")).bind
        (fun s => DLinkedList_prepend s (some "b")) = none := by
  decide

/-- C4 counterexample: the freshly created list with hint 2 is reachable
and has capacity - size = 2 spare nodes, yet only one pooled node lies
after list_end, because the empty window is anchored at the front node,
which is itself spare but sits at list_end rather than after it. -/
theorem spare_count_fails_when_empty :
    Reachable Unit (DLinkedList_new Unit 2) ∧
    (DLinkedList_new Unit 2).capacity - (DLinkedList_new Unit 2).size = 2 ∧
    (DLinkedList_new Unit 2).capacity - ((DLinkedList_new Unit 2).list_end + 1) = 1 ∧
    (DLinkedList_new Unit 2).capacity - ((DLinkedList_new Unit 2).list_end + 1) ≠
      (DLinkedList_new Unit 2).capacity - (DLinkedList_new Unit 2).size :=
  ⟨Reachable.new 2, by decide, by decide, by decide⟩

/-- C4 (amended): in every reachable state list_start equals front (chain
position 0), so no pooled node lies before list_start; the spare nodes all
lie on the tail side: exactly capacity - size of them strictly after
list_end when size > 0, and, when size == 0, capacity - 1 of them after
list_end with the remaining spare node being the empty anchor at
list_start == list_end itself. -/
theorem window_anchored_at_front {α : Type} {s : DLinkedList α}
    (h : Reachable α s) :
    s.list_start = 0 ∧
    (0 < s.size → s.capacity - (s.list_end + 1) = s.capacity - s.size) ∧
    (s.size = 0 → s.list_end = 0 ∧
      s.capacity - (s.list_end + 1) = s.capacity - 1) := by
  obtain ⟨h1, h2, h3, h4, h5, h6⟩ := reachable_wf h
  exact ⟨h1, fun hs => by omega, fun hs => ⟨h5 hs, by omega⟩⟩

theorem window_anchored_at_front_witness :
    Reachable Unit (DLinkedList_new Unit 3) ∧
      ((DLinkedList_new Unit 3).list_start = 0 ∧
        (0 < (DLinkedList_new Unit 3).size →
          (DLinkedList_new Unit 3).capacity - ((DLinkedList_new Unit 3).list_end + 1)
            = (DLinkedList_new Unit 3).capacity - (DLinkedList_new Unit 3).size) ∧
        ((DLinkedList_new Unit 3).size = 0 → (DLinkedList_new Unit 3).list_end = 0 ∧
          (DLinkedList_new Unit 3).capacity - ((DLinkedList_new Unit 3).list_end + 1)
            = (DLinkedList_new Unit 3).capacity - 1)) :=
  ⟨Reachable.new 3, window_anchored_at_front (Reachable.new 3)⟩

/-- C5: every state reachable from construction through the public
operations satisfies 0 <= size <= capacity and capacity >= 1. -/
theorem size_le_capacity_invariant {α : Type} {s : DLinkedList α}
    (h : Reachable α s) :
    0 ≤ s.size ∧ s.size ≤ s.capacity ∧ 1 ≤ s.capacity :=
  ⟨Nat.zero_le _, (reachable_wf h).2.2.2.1, (reachable_wf h).2.2.1⟩

theorem size_le_capacity_invariant_witness :
    Reachable Unit (DLinkedList_new Unit 0) ∧
      (0 ≤ (DLinkedList_new Unit 0).size ∧
        (DLinkedList_new Unit 0).size ≤ (DLinkedList_new Unit 0).capacity ∧
        1 ≤ (DLinkedList_new Unit 0).capacity) :=
  ⟨Reachable.new 0, size_le_capacity_invariant (Reachable.new 0)⟩

/-- C6: on every reachable state and in-range index, search answers
list_start for index 0 and list_end for index size - 1, and in every case
(also through the midpoint split of split_search) it returns the node
reached by walking forward from list_start exactly index steps, which is
chain position list_start + index. -/
theorem search_returns_logical_position {α : Type} {s : DLinkedList α}
    (h : Reachable α s) (index : Int) (h0 : 0 ≤ index)
    (hlt : index < (s.size : Int)) :
    (index = 0 → search s index = some s.list_start) ∧
    (index = (s.size : Int) - 1 → search s index = some s.list_end) ∧
    search s index = walkF s.pool.length s.list_start index.toNat ∧
    search s index = some (s.list_start + index.toNat) := by
  obtain ⟨h1, h2, h3, h4, h5, h6⟩ := reachable_wf h
  have hse := search_eq ⟨h1, h2, h3, h4, h5, h6⟩ h0 hlt
  refine ⟨?_, ?_, ?_, ?_⟩
  · intro hz
    rw [hse, h1]
    congr 1
    omega
  · intro hl
    rw [hse]
    congr 1
    omega
  · rw [hse, h1, walkF_ok s.pool.length index.toNat 0 (by omega)]
    simp
  · rw [hse, h1]
    simp

theorem search_returns_logical_position_witness :
    Reachable String (DLinkedList.mk [some "a"] 0 0 1 1) ∧ (0 : Int) ≤ 0 ∧
      (0 : Int) < ((DLinkedList.mk [some "a"] 0 0 1 1).size : Int) ∧
      (((0 : Int) = 0 →
          search (DLinkedList.mk [some "a"] 0 0 1 1) 0
            = some (DLinkedList.mk [some "a"] 0 0 1 1).list_start) ∧
        ((0 : Int) = ((DLinkedList.mk [some "a"] 0 0 1 1).size : Int) - 1 →
          search (DLinkedList.mk [some "a"] 0 0 1 1) 0
            = some (DLinkedList.mk [some "a"] 0 0 1 1).list_end) ∧
        search (DLinkedList.mk [some "a"] 0 0 1 1) 0
          = walkF (DLinkedList.mk [some "a"] 0 0 1 1).pool.length
              (DLinkedList.mk [some "a"] 0 0 1 1).list_start (Int.toNat 0) ∧
        search (DLinkedList.mk [some "a"] 0 0 1 1) 0
          = some ((DLinkedList.mk [some "a"] 0 0 1 1).list_start + Int.toNat 0)) :=
  ⟨@Reachable.append String (DLinkedList_new String 1) (DLinkedList.mk [some "a"] 0 0 1 1)
      (some "a") (Reachable.new 1) rfl,
    by decide, by decide,
    search_returns_logical_position
      (@Reachable.append String (DLinkedList_new String 1) (DLinkedList.mk [some "a"] 0 0 1 1)
        (some "a") (Reachable.new 1) rfl)
      0 (by decide) (by decide)⟩

/-- C7: for every state and element, set at index == size is literally a
call of append; evaluated at the failing input (fresh list with hint 2,
set(0, x) where size == 0): size does increase to 1, but the element is
written through tail while the window stays at the front node, so get(0)
returns the NULL sentinel and the new element is not retrievable at the
old size index as the claim requires. -/
theorem set_at_size_behaves_as_append :
    (∀ (α : Type) (s : DLinkedList α) (e : Option α),
        DLinkedList_set s e (s.size : Int) = DLinkedList_append s e) ∧
    (DLinkedList_set (DLinkedList_new String 2) (some "x") 0).map DLinkedList_length
        = some 1 ∧
    (DLinkedList_set (DLinkedList_new String 2) (some "x") 0).bind
        (fun t => DLinkedList_get t 0) = some none := by
  refine ⟨?_, by decide, by decide⟩
  intro α s e
  unfold DLinkedList_set
  rw [if_neg (by omega), if_pos rfl]

/-- C8: on every reachable state, get is a precondition violation exactly
for index < 0 or index >= size, while first and last are safe queries:
they answer the NULL sentinel on an empty list and the elem slots at
list_start and list_end (never a violation) otherwise. -/
theorem get_violation_iff_first_last_safe {α : Type} {s : DLinkedList α}
    (h : Reachable α s) :
    (∀ index : Int,
        DLinkedList_get s index = none ↔ (index < 0 ∨ (s.size : Int) ≤ index)) ∧
    (s.size = 0 → DLinkedList_first s = some none ∧ DLinkedList_last s = some none) ∧
    (0 < s.size → DLinkedList_first s = s.pool[s.list_start]? ∧
      DLinkedList_last s = s.pool[s.list_end]? ∧
      DLinkedList_first s ≠ none ∧ DLinkedList_last s ≠ none) := by
  obtain ⟨h1, h2, h3, h4, h5, h6⟩ := reachable_wf h
  refine ⟨fun index => ⟨?_, ?_⟩, fun hs => ?_, fun hs => ?_⟩
  · intro hnone
    by_contra hc
    rcases not_or.mp hc with ⟨ha, hb⟩
    obtain ⟨v, hv⟩ := get_is_some ⟨h1, h2, h3, h4, h5, h6⟩ index (by omega) (by omega)
    rw [hv] at hnone
    exact Option.noConfusion hnone
  · intro hbad
    unfold DLinkedList_get
    rw [if_pos hbad]
  · exact ⟨by unfold DLinkedList_first; rw [if_pos hs],
      by unfold DLinkedList_last; rw [if_pos hs]⟩
  · have hfs : ¬s.size = 0 := by omega
    have h6x : s.list_end + 1 = s.size := h6 (by omega)
    have hstart : s.list_start < s.pool.length := by omega
    have hend : s.list_end < s.pool.length := by omega
    refine ⟨by unfold DLinkedList_first; rw [if_neg hfs],
      by unfold DLinkedList_last; rw [if_neg hfs], ?_, ?_⟩
    · unfold DLinkedList_first
      rw [if_neg hfs, List.getElem?_eq_getElem hstart]
      simp
    · unfold DLinkedList_last
      rw [if_neg hfs, List.getElem?_eq_getElem hend]
      simp

theorem get_violation_iff_first_last_safe_witness :
    Reachable String (DLinkedList_new String 0) ∧
      ((∀ index : Int,
          DLinkedList_get (DLinkedList_new String 0) index = none ↔
            (index < 0 ∨ ((DLinkedList_new String 0).size : Int) ≤ index)) ∧
        ((DLinkedList_new String 0).size = 0 →
          DLinkedList_first (DLinkedList_new String 0) = some none ∧
            DLinkedList_last (DLinkedList_new String 0) = some none) ∧
        (0 < (DLinkedList_new String 0).size →
          DLinkedList_first (DLinkedList_new String 0)
              = (DLinkedList_new String 0).pool[(DLinkedList_new String 0).list_start]? ∧
            DLinkedList_last (DLinkedList_new String 0)
              = (DLinkedList_new String 0).pool[(DLinkedList_new String 0).list_end]? ∧
            DLinkedList_first (DLinkedList_new String 0) ≠ none ∧
            DLinkedList_last (DLinkedList_new String 0) ≠ none)) :=
  ⟨Reachable.new 0, get_violation_iff_first_last_safe (Reachable.new 0)⟩

/-- C9: construction with any hint yields size 0, capacity max(hint, 1),
a pool of exactly that many empty chained nodes (front at position 0 and
tail at the last position of the chain list), and both window bounds
anchored at front; in particular hint 0 yields capacity 1. -/
theorem new_initializes_pool (α : Type) (hint : Nat) :
    (DLinkedList_new α hint).size = 0 ∧
    (DLinkedList_new α hint).capacity = max hint 1 ∧
    (DLinkedList_new α hint).pool = List.replicate (max hint 1) none ∧
    (DLinkedList_new α hint).pool.length = max hint 1 ∧
    (DLinkedList_new α hint).list_start = 0 ∧
    (DLinkedList_new α hint).list_end = 0 ∧
    (DLinkedList_new α 0).capacity = 1 := by
  have hpool : (DLinkedList_new α hint).pool = List.replicate (max hint 1) none := by
    show malloc_hint α (if hint = 0 then hint + 1 else hint) = _
    by_cases h : hint = 0
    · subst h
      rw [if_pos rfl, malloc_hint_eq α 1 (by omega)]
      norm_num
    · rw [if_neg h, malloc_hint_eq α hint (by omega)]
      congr 1
      omega
  have hcap : (DLinkedList_new α hint).capacity = max hint 1 := by
    show (if hint = 0 then hint + 1 else hint) = _
    by_cases h : hint = 0
    · subst h
      norm_num
    · rw [if_neg h]
      omega
  refine ⟨rfl, hcap, hpool, ?_, rfl, rfl, rfl⟩
  rw [hpool, List.length_replicate]

/-- C10: the three removal entry points have empty bodies in the source
(they only cast their arguments to void), so they return the state with
every field, and so every stored element, unchanged. -/
theorem remove_ops_are_noops (α : Type) (s : DLinkedList α) (index : Int) :
    DLinkedList_remove s index = s ∧ DLinkedList_removehi s = s ∧
      DLinkedList_removelo s = s :=
  ⟨rfl, rfl, rfl⟩
